import Mathlib

/-!
Verification of `conans/client/downloaders/download_cache.py` (class
`DownloadCache`): the backup-sources sidecar metadata store and the
upload selector, shallowly embedded as pure Lean functions.

Modelling choices:
* A parsed sidecar JSON document is a `Summary`: an insertion-ordered
  association list of reference key → URL list (Python dicts preserve
  insertion order), plus a numeric timestamp.
* Filesystem state is passed explicitly: `update_backup_sources_json`
  takes the current sidecar content as an `Option Summary` (`none` when
  the `.json` file does not exist) and the current clock value, and
  returns the document it saves.
* The `source-backups` ("s") directory is a `BackupsDir`: the
  `os.listdir` name listing plus a map from `.json` file names to their
  parsed contents.  `get_backup_sources_files_to_upload` returns
  `Except String (List String)`: `ConanException` becomes `.error msg`.
* `list.extend(generator)` in CPython interleaves the generator's
  membership test with the appends, so a URL list that repeats an
  element is deduplicated as it is merged; `extendNoDup` reproduces
  exactly that interleaved semantics.
-/

namespace DownloadCache

/-- A parsed backup sidecar document:
`{"references": {ref: [url, ...], ...}, "timestamp": t}`. -/
structure Summary where
  references : List (String × List String)
  timestamp : Nat
  deriving Repr, DecidableEq

/-- Model of `os.path.join` on two components (POSIX separator). -/
def pathJoin (a b : String) : String := a ++ "/" ++ b

/-- Character-list core of Python's `str.startswith`: does the first
list start with the second? -/
def charsStartWith : List Char → List Char → Bool
  | _, [] => true
  | [], _ :: _ => false
  | c :: s, p :: ps => c = p && charsStartWith s ps

/-- Model of Python `s.startswith(p)`, at character level. -/
def strStartsWith (s p : String) : Bool := charsStartWith s.data p.data

/-- Model of Python `s.endswith(p)`, at character level. -/
def strEndsWith (s p : String) : Bool :=
  charsStartWith s.data.reverse p.data.reverse

/-- Model of `existing_urls.extend(url for url in urls if url not in existing_urls)`:
CPython's `list.extend` consumes the generator one element at a time and
appends between pulls, so each membership test sees the urls already
appended by earlier iterations. -/
def extendNoDup (existing : List String) : List String → List String
  | [] => existing
  | u :: rest =>
    if u ∈ existing then extendNoDup existing rest
    else extendNoDup (existing ++ [u]) rest

/-- Model of `summary["references"].setdefault(summary_key, [])` followed by the
in-place `extend`: the first entry with key `k` has its list extended in
place; if no entry has key `k`, a fresh `(k, extendNoDup [] urls)` entry
is appended at the end (dict insertion order). -/
def updateRefs (k : String) (urls : List String) :
    List (String × List String) → List (String × List String)
  | [] => [(k, extendNoDup [] urls)]
  | (k', v) :: rest =>
    if k' = k then (k', extendNoDup v urls) :: rest
    else (k', v) :: updateRefs k urls rest

/-- Model of `try: summary_key = str(conanfile.ref) except AttributeError:
summary_key = "unknown"` — the conanfile's reference, if resolvable, is
`some r` with `r` its textual form. -/
def summaryKey (ref? : Option String) : String := ref?.getD "unknown"

/-- Model of `DownloadCache.update_backup_sources_json(cached_path, conanfile, urls)`
as a pure state transformer: `sidecar` is the parsed content of
`cached_path + ".json"` when that file exists, `now` is `timestamp_now()`,
`ref?` the conanfile's resolvable reference.  Returns the document written
back (whole-file overwrite). -/
def update_backup_sources_json (sidecar : Option Summary) (now : Nat)
    (ref? : Option String) (urls : List String) : Summary :=
  let summary := sidecar.getD { references := [], timestamp := now }
  { summary with
    references := updateRefs (summaryKey ref?) urls summary.references }

/-- First-entry lookup in an association list (Python `refs[key]`). -/
def lookupRef (refs : List (String × List String)) (k : String) :
    Option (List String) :=
  match refs with
  | [] => none
  | (k', v) :: rest => if k' = k then some v else lookupRef rest k

/-- One entry of `package_list.refs()`: `ref.get("upload")` and
`ref.get("packages", {})`, whose values each carry `package["revisions"]`,
a map revision-id → `prev` with `prev["upload"]`. -/
structure RefEntry where
  upload : Bool
  packages : List (String × List (String × Bool))
  deriving Repr, DecidableEq

/-- Model of `should_upload_sources(package)`:
`any(prev["upload"] for prev in package["revisions"].values())`.
The argument is the `"revisions"` map of one binary package. -/
def should_upload_sources (revisions : List (String × Bool)) : Bool :=
  revisions.any (fun prev => prev.2)

/-- The `all_refs` set: `str(k)` for every `(k, ref)` in
`package_list.refs().items()` with
`ref.get("upload") or any(should_upload_sources(p) for p in packages)`. -/
def eligibleRefs (package_list : List (String × RefEntry)) : List String :=
  package_list.filterMap (fun kr =>
    if kr.2.upload || kr.2.packages.any
        (fun p => should_upload_sources p.2) then some kr.1 else none)

/-- Model of `has_excluded_urls(backup_urls)`:
`all(any(url.startswith(e) for e in excluded_urls) for url in backup_urls)`. -/
def has_excluded_urls (excluded_urls backup_urls : List String) : Bool :=
  backup_urls.all (fun url =>
    excluded_urls.any (fun excluded_url => strStartsWith url excluded_url))

/-- The inner `for ref, urls in refs.items(): ... break` loop: whether some
reference key of the sidecar qualifies the blob.  `all_refs?` is `none`
when `package_list is None`, else the eligible set. -/
def someRefQualifies (excluded : List String) (all_refs? : Option (List String)) :
    List (String × List String) → Bool
  | [] => false
  | (ref, urls) :: rest =>
    if !has_excluded_urls excluded urls
        && (all_refs?.elim true (fun s => ref ∈ s)) then true
    else someRefQualifies excluded all_refs? rest

/-- The on-disk `source-backups` ("s") directory: the `os.listdir` name
listing, and the parsed content of each existing `.json` file, keyed by
file name.  A name absent from `jsonFiles` models a missing (or
non-`.json`) file. -/
structure BackupsDir where
  listing : List String
  jsonFiles : List (String × Summary)
  deriving Repr

/-- Model of `os.path.exists(metadata_path)` plus `json.loads(load(metadata_path))`,
keyed by file name inside the backups directory. -/
def lookupJson (files : List (String × Summary)) (name : String) :
    Option Summary :=
  match files with
  | [] => none
  | (n, s) :: rest => if n = name then some s else lookupJson rest name

/-- The `for path in os.listdir(path_backups)` loop body, recursively:
skip `.json` names; for a blob require its sidecar (else raise); append
`metadata_path` then `blob_path` when some reference key qualifies. -/
def collectUploads (path_backups : String) (jsonFiles : List (String × Summary))
    (excluded : List String) (all_refs? : Option (List String)) :
    List String → Except String (List String)
  | [] => .ok []
  | name :: rest =>
    if strEndsWith name ".json" then
      collectUploads path_backups jsonFiles excluded all_refs? rest
    else
      let blob_path := pathJoin path_backups name
      let metadata_path := blob_path ++ ".json"
      match lookupJson jsonFiles (name ++ ".json") with
      | none => .error ("Missing metadata file for backup source " ++ blob_path)
      | some metadata =>
        let contrib :=
          if someRefQualifies excluded all_refs? metadata.references then
            [metadata_path, blob_path]
          else []
        (collectUploads path_backups jsonFiles excluded all_refs? rest).map
          (fun tail => contrib ++ tail)

/-- Model of `DownloadCache.get_backup_sources_files_to_upload(excluded_urls,
package_list)`: `root` is the cache path, `dir?` is `some` the backups
directory when `os.path.exists(path_backups)`, `excluded_urls` is `None`
or a list, `package_list` is `None` or the modelled `refs()` items. -/
def get_backup_sources_files_to_upload (root : String) (dir? : Option BackupsDir)
    (excluded_urls : Option (List String))
    (package_list : Option (List (String × RefEntry))) :
    Except String (List String) :=
  match dir? with
  | none => .ok []
  | some dir =>
    let path_backups := pathJoin root "s"
    let excluded := excluded_urls.getD []
    let all_refs? := package_list.map eligibleRefs
    collectUploads path_backups dir.jsonFiles excluded all_refs? dir.listing

/-! ### Helper lemmas about the merge step -/

/-- Elements of the starting list survive the merge. -/
lemma mem_extendNoDup_left {v : List String} {u : String} (urls : List String)
    (h : u ∈ v) : u ∈ extendNoDup v urls := by
  induction urls generalizing v with
  | nil => simpa [extendNoDup] using h
  | cons x rest ih =>
    simp only [extendNoDup]
    split
    · exact ih h
    · exact ih (by simp [h])

/-- Every merged-in URL ends up in the result. -/
lemma mem_extendNoDup_right {urls : List String} {u : String} (v : List String)
    (h : u ∈ urls) : u ∈ extendNoDup v urls := by
  induction urls generalizing v with
  | nil => cases h
  | cons x rest ih =>
    simp only [extendNoDup]
    rcases List.mem_cons.1 h with rfl | hrest
    · split
      · exact mem_extendNoDup_left rest (by assumption)
      · exact mem_extendNoDup_left rest (by simp)
    · split
      · exact ih _ hrest
      · exact ih _ hrest

/-- Merging URLs that are all already present is a no-op. -/
lemma extendNoDup_eq_self {v urls : List String}
    (h : ∀ u ∈ urls, u ∈ v) : extendNoDup v urls = v := by
  induction urls with
  | nil => rfl
  | cons x rest ih =>
    have hx : x ∈ v := h x (by simp)
    simp only [extendNoDup, if_pos hx]
    exact ih (fun u hu => h u (by simp [hu]))

/-- The merge step is idempotent. -/
lemma extendNoDup_idem (v urls : List String) :
    extendNoDup (extendNoDup v urls) urls = extendNoDup v urls :=
  extendNoDup_eq_self (fun u hu => mem_extendNoDup_right v hu)

/-- Structure of the merge: the existing list is kept verbatim at the
front and the appended tail is an order-preserving selection of the
input that adds exactly the missing URLs, without duplicates. -/
lemma extendNoDup_decomp (v urls : List String) :
    ∃ t, extendNoDup v urls = v ++ t ∧ t.Sublist urls ∧ t.Nodup ∧
      (∀ u ∈ t, u ∉ v) ∧ (∀ u ∈ urls, u ∉ v → u ∈ t) := by
  induction urls generalizing v with
  | nil => exact ⟨[], by simp [extendNoDup]⟩
  | cons x rest ih =>
    by_cases hx : x ∈ v
    · obtain ⟨t, ht, hsub, hnd, hnotv, hcover⟩ := ih v
      refine ⟨t, ?_, hsub.cons x, hnd, hnotv, ?_⟩
      · simpa [extendNoDup, if_pos hx] using ht
      · intro u hu huv
        rcases List.mem_cons.1 hu with rfl | hu
        · exact absurd hx huv
        · exact hcover u hu huv
    · obtain ⟨t, ht, hsub, hnd, hnotv, hcover⟩ := ih (v ++ [x])
      refine ⟨x :: t, ?_, hsub.cons₂ x, ?_, ?_, ?_⟩
      · simp only [extendNoDup, if_neg hx]
        rw [ht]; simp
      · refine List.nodup_cons.2 ⟨fun hxt => ?_, hnd⟩
        exact hnotv x hxt (by simp)
      · intro u hu
        rcases List.mem_cons.1 hu with rfl | hu
        · exact hx
        · intro huv
          exact hnotv u hu (by simp [huv])
      · intro u hu huv
        rcases List.mem_cons.1 hu with rfl | hu
        · simp
        · by_cases hux : u = x
          · simp [hux]
          · exact List.mem_cons.2 (Or.inr (hcover u hu (by simp [huv, hux])))

/-- A merge of a duplicate-free list stays duplicate-free. -/
lemma extendNoDup_nodup {v : List String} (urls : List String)
    (h : v.Nodup) : (extendNoDup v urls).Nodup := by
  obtain ⟨t, ht, _, hnd, hnotv, _⟩ := extendNoDup_decomp v urls
  rw [ht]
  exact List.nodup_append.2 ⟨h, hnd, fun a hav hat => hnotv a hat hav⟩

/-! ### Helper lemmas about the per-key update -/

/-- After the update, the resolved key maps to its old list merged with
the new URLs. -/
lemma lookupRef_updateRefs_self (k : String) (urls : List String)
    (refs : List (String × List String)) :
    lookupRef (updateRefs k urls refs) k
      = some (extendNoDup ((lookupRef refs k).getD []) urls) := by
  induction refs with
  | nil => simp [updateRefs, lookupRef]
  | cons p rest ih =>
    obtain ⟨k', v⟩ := p
    by_cases hk : k' = k
    · simp [updateRefs, lookupRef, hk]
    · simp [updateRefs, lookupRef, hk, ih]

/-- The update leaves every other key's list untouched. -/
lemma lookupRef_updateRefs_other {k k' : String} (urls : List String)
    (refs : List (String × List String)) (h : k' ≠ k) :
    lookupRef (updateRefs k urls refs) k' = lookupRef refs k' := by
  induction refs with
  | nil => simp [updateRefs, lookupRef, Ne.symm h]
  | cons p rest ih =>
    obtain ⟨k₀, v⟩ := p
    by_cases hk : k₀ = k
    · subst hk
      simp [updateRefs, lookupRef, Ne.symm h]
    · simp [updateRefs, lookupRef, hk, ih]

/-- The key sequence is unchanged when the key is present and otherwise
grows by exactly that key at the end. -/
lemma updateRefs_keys (k : String) (urls : List String)
    (refs : List (String × List String)) :
    (updateRefs k urls refs).map Prod.fst
      = if k ∈ refs.map Prod.fst then refs.map Prod.fst
        else refs.map Prod.fst ++ [k] := by
  induction refs with
  | nil => simp [updateRefs]
  | cons p rest ih =>
    obtain ⟨k₀, v⟩ := p
    by_cases hk : k₀ = k
    · simp [updateRefs, hk]
    · simp only [updateRefs, if_neg hk, List.map_cons, ih]
      by_cases hmem : k ∈ rest.map Prod.fst
      · simp [hmem, Ne.symm hk]
      · simp [hmem, Ne.symm hk]

/-- Re-running the same per-key update changes nothing. -/
lemma updateRefs_idem (k : String) (urls : List String)
    (refs : List (String × List String)) :
    updateRefs k urls (updateRefs k urls refs) = updateRefs k urls refs := by
  induction refs with
  | nil => simp [updateRefs, extendNoDup_idem]
  | cons p rest ih =>
    obtain ⟨k₀, v⟩ := p
    by_cases hk : k₀ = k
    · simp [updateRefs, hk, extendNoDup_idem]
    · simp [updateRefs, hk, ih]

/-- Per-entry duplicate-freedom is preserved by the per-key update. -/
lemma updateRefs_nodup {k : String} {urls : List String}
    {refs : List (String × List String)}
    (h : ∀ p ∈ refs, p.2.Nodup) :
    ∀ p ∈ updateRefs k urls refs, p.2.Nodup := by
  induction refs with
  | nil =>
    intro p hp
    simp only [updateRefs, List.mem_singleton] at hp
    subst hp
    exact extendNoDup_nodup urls List.nodup_nil
  | cons q rest ih =>
    obtain ⟨k₀, v⟩ := q
    intro p hp
    by_cases hk : k₀ = k
    · simp only [updateRefs, if_pos hk, List.mem_cons] at hp
      rcases hp with rfl | hp
      · exact extendNoDup_nodup urls (h (k₀, v) (by simp))
      · exact h p (by simp [hp])
    · simp only [updateRefs, if_neg hk, List.mem_cons] at hp
      rcases hp with rfl | hp
      · exact h (k₀, v) (by simp)
      · exact ih (fun q hq => h q (by simp [hq])) p hp

/-- Re-saving the sidecar with identical arguments reproduces the same
document, timestamp included. -/
lemma update_backup_sources_json_twice (s : Option Summary) (now later : Nat)
    (ref? : Option String) (urls : List String) :
    update_backup_sources_json (some (update_backup_sources_json s now ref? urls))
        later ref? urls
      = update_backup_sources_json s now ref? urls := by
  simp [update_backup_sources_json, updateRefs_idem]

/-! ### Helper lemmas about the upload selector -/

/-- The blob-qualification scan succeeds exactly when some recorded
reference key passes both the exclusion test and the selection filter. -/
lemma someRefQualifies_iff (excluded : List String)
    (all_refs? : Option (List String)) (refs : List (String × List String)) :
    someRefQualifies excluded all_refs? refs = true ↔
      ∃ p ∈ refs, has_excluded_urls excluded p.2 = false ∧
        (∀ sel, all_refs? = some sel → p.1 ∈ sel) := by
  induction refs with
  | nil => simp [someRefQualifies]
  | cons q rest ih =>
    obtain ⟨ref, urls⟩ := q
    by_cases hcond : (!has_excluded_urls excluded urls
        && (all_refs?.elim true (fun s => ref ∈ s))) = true
    · simp only [someRefQualifies, if_pos hcond, true_iff]
      rw [Bool.and_eq_true] at hcond
      obtain ⟨hne, hsel⟩ := hcond
      refine ⟨(ref, urls), by simp, by simpa using hne, ?_⟩
      intro sel hs
      subst hs
      simpa using hsel
    · simp only [someRefQualifies, if_neg hcond, ih]
      constructor
      · rintro ⟨p, hp, hne, hsel⟩
        exact ⟨p, by simp [hp], hne, hsel⟩
      · rintro ⟨p, hp, hne, hsel⟩
        rcases List.mem_cons.1 hp with rfl | hp
        · exfalso
          apply hcond
          simp only [Bool.and_eq_true, Bool.not_eq_true']
          refine ⟨hne, ?_⟩
          cases all_refs? with
          | none => rfl
          | some sel => simpa using hsel sel rfl
        · exact ⟨p, hp, hne, hsel⟩

/-- If every name in the listing is a sidecar name, the scan collects
nothing and cannot fail. -/
lemma collectUploads_all_json (path_backups : String)
    (jsonFiles : List (String × Summary)) (excluded : List String)
    (all_refs? : Option (List String)) (listing : List String)
    (h : ∀ name ∈ listing, strEndsWith name ".json" = true) :
    collectUploads path_backups jsonFiles excluded all_refs? listing = .ok [] := by
  induction listing with
  | nil => rfl
  | cons name rest ih =>
    have hn : strEndsWith name ".json" = true := h name (by simp)
    simp only [collectUploads, if_pos hn]
    exact ih (fun n hn' => h n (by simp [hn']))

/-- A blob without its sidecar anywhere in the listing forces the whole
scan to fail with the missing-metadata message of some such blob. -/
lemma collectUploads_error_of_missing (path_backups : String)
    (jsonFiles : List (String × Summary)) (excluded : List String)
    (all_refs? : Option (List String)) (listing : List String) (name : String)
    (hmem : name ∈ listing) (hjson : strEndsWith name ".json" = false)
    (hmiss : lookupJson jsonFiles (name ++ ".json") = none) :
    ∃ b ∈ listing, strEndsWith b ".json" = false ∧
      lookupJson jsonFiles (b ++ ".json") = none ∧
      collectUploads path_backups jsonFiles excluded all_refs? listing
        = .error ("Missing metadata file for backup source "
            ++ pathJoin path_backups b) := by
  induction listing with
  | nil => cases hmem
  | cons x rest ih =>
    by_cases hx : strEndsWith x ".json" = true
    · have hname : name ∈ rest := by
        rcases List.mem_cons.1 hmem with rfl | h
        · rw [hx] at hjson; cases hjson
        · exact h
      obtain ⟨b, hb, hbj, hbm, hbe⟩ := ih hname
      exact ⟨b, by simp [hb], hbj, hbm, by simpa [collectUploads, hx] using hbe⟩
    · replace hx : strEndsWith x ".json" = false := by
        cases h : strEndsWith x ".json" with
        | false => rfl
        | true => exact absurd h hx
      cases hlook : lookupJson jsonFiles (x ++ ".json") with
      | none =>
        refine ⟨x, by simp, hx, hlook, ?_⟩
        simp [collectUploads, hx, hlook]
      | some md =>
        have hname : name ∈ rest := by
          rcases List.mem_cons.1 hmem with rfl | h
          · rw [hlook] at hmiss; cases hmiss
          · exact h
        obtain ⟨b, hb, hbj, hbm, hbe⟩ := ih hname
        refine ⟨b, by simp [hb], hbj, hbm, ?_⟩
        simp only [collectUploads, hx, hlook]
        rw [hbe]
        rfl

/-! ### Claim theorems -/

/-- C1: `update_backup_sources_json` is idempotent — re-applying the
operation with the same reference and urls, once more or any number of
further times (at arbitrary later clock values), yields exactly the
sidecar document of the first application; in particular the
`references` entry does not grow and the timestamp set at first creation
is retained. -/
theorem update_backup_sources_json_idempotent (s : Option Summary) (now : Nat)
    (ref? : Option String) (urls : List String) (later : Nat) (ts : List Nat) :
    update_backup_sources_json (some (update_backup_sources_json s now ref? urls))
        later ref? urls
      = update_backup_sources_json s now ref? urls
    ∧ ts.foldl (fun d t => update_backup_sources_json (some d) t ref? urls)
        (update_backup_sources_json s now ref? urls)
      = update_backup_sources_json s now ref? urls := by
  refine ⟨update_backup_sources_json_twice s now later ref? urls, ?_⟩
  induction ts with
  | nil => rfl
  | cons t rest ih =>
    rw [List.foldl_cons, update_backup_sources_json_twice]
    exact ih

/-- Closed instance of the C1 theorem: re-applying an update at a later
clock value reproduces the first document exactly. -/
theorem update_backup_sources_json_idempotent_witness :
    update_backup_sources_json
        (some (update_backup_sources_json none 3 (some "p") ["u"])) 8
        (some "p") ["u"]
      = update_backup_sources_json none 3 (some "p") ["u"] :=
  (update_backup_sources_json_idempotent none 3 (some "p") ["u"] 8 []).1

/-- C2: the merge step keeps the existing URL list of the resolved key
verbatim at the front and appends, in input order, exactly those input
URLs not already present; concretely, merging `["a", "b"]` and then
`["b", "c"]` into a fresh sidecar yields `["a", "b", "c"]` for the key. -/
theorem update_backup_sources_json_merge_order (s : Summary) (now later : Nat)
    (ref? : Option String) (urls : List String) :
    (∃ t, lookupRef (update_backup_sources_json (some s) now ref? urls).references
            (summaryKey ref?)
          = some (((lookupRef s.references (summaryKey ref?)).getD []) ++ t)
        ∧ t.Sublist urls
        ∧ (∀ u ∈ t, u ∉ (lookupRef s.references (summaryKey ref?)).getD [])
        ∧ (∀ u ∈ urls, u ∉ (lookupRef s.references (summaryKey ref?)).getD []
            → u ∈ t))
    ∧ lookupRef (update_backup_sources_json
          (some (update_backup_sources_json none now ref? ["a", "b"]))
          later ref? ["b", "c"]).references (summaryKey ref?)
        = some ["a", "b", "c"] := by
  constructor
  · obtain ⟨t, ht, hsub, hnd, hnotv, hcov⟩ :=
      extendNoDup_decomp ((lookupRef s.references (summaryKey ref?)).getD []) urls
    refine ⟨t, ?_, hsub, hnotv, hcov⟩
    simp [update_backup_sources_json, lookupRef_updateRefs_self, ht]
  · have h1 : extendNoDup ([] : List String) ["a", "b"] = ["a", "b"] := by decide
    have h2 : extendNoDup ["a", "b"] ["b", "c"] = ["a", "b", "c"] := by decide
    simp [update_backup_sources_json, lookupRef_updateRefs_self, lookupRef, h1, h2]

/-- C7: the sidecar key is the textual package reference when the
conanfile has one and the sentinel "unknown" otherwise; in the fallback
case the supplied URLs are all stored under the "unknown" key, with no
error possible (the update is total). -/
theorem update_backup_sources_json_key_resolution (s : Option Summary)
    (now : Nat) (urls : List String) :
    (∀ r, lookupRef (update_backup_sources_json s now (some r) urls).references r
        = some (extendNoDup
            ((lookupRef (s.getD ⟨[], now⟩).references r).getD []) urls))
    ∧ (lookupRef (update_backup_sources_json s now none urls).references "unknown"
        = some (extendNoDup
            ((lookupRef (s.getD ⟨[], now⟩).references "unknown").getD []) urls))
    ∧ (∀ u ∈ urls,
        u ∈ (lookupRef (update_backup_sources_json s now none urls).references
              "unknown").getD []) := by
  refine ⟨?_, ?_, ?_⟩
  · intro r
    simp [update_backup_sources_json, summaryKey, lookupRef_updateRefs_self]
  · simp [update_backup_sources_json, summaryKey, lookupRef_updateRefs_self]
  · intro u hu
    have h : lookupRef (update_backup_sources_json s now none urls).references
        "unknown" = some (extendNoDup
          ((lookupRef (s.getD ⟨[], now⟩).references "unknown").getD []) urls) := by
      simp [update_backup_sources_json, summaryKey, lookupRef_updateRefs_self]
    rw [h]
    exact mem_extendNoDup_right _ hu

/-- Closed instance of the C7 theorem: a URL passed with an unresolvable
reference lands under the "unknown" key. -/
theorem update_backup_sources_json_key_resolution_witness :
    "u1" ∈ (lookupRef (update_backup_sources_json none 7 none
        ["u1", "u2"]).references "unknown").getD [] :=
  (update_backup_sources_json_key_resolution none 7 ["u1", "u2"]).2.2 "u1"
    (by decide)

/-- C8: each update preserves the sidecar invariants — every key's URL
list stays duplicate-free (even for an input list repeating a URL) with
its prior content kept as an unchanged front segment, and the timestamp
is set at creation and never modified by later updates. -/
theorem update_backup_sources_json_invariants (s : Summary) (now : Nat)
    (ref? : Option String) (urls : List String) :
    ((∀ p ∈ s.references, p.2.Nodup) →
      ∀ p ∈ (update_backup_sources_json (some s) now ref? urls).references,
        p.2.Nodup)
    ∧ (∀ k v, lookupRef s.references k = some v →
        ∃ t, lookupRef (update_backup_sources_json (some s) now ref?
            urls).references k = some (v ++ t))
    ∧ (update_backup_sources_json (some s) now ref? urls).timestamp
        = s.timestamp
    ∧ (update_backup_sources_json none now ref? urls).timestamp = now := by
  refine ⟨?_, ?_, rfl, rfl⟩
  · intro h p hp
    exact updateRefs_nodup h p (by simpa [update_backup_sources_json] using hp)
  · intro k v hv
    by_cases hk : k = summaryKey ref?
    · subst hk
      obtain ⟨t, ht, -, -, -⟩ := extendNoDup_decomp v urls
      refine ⟨t, ?_⟩
      simp [update_backup_sources_json, lookupRef_updateRefs_self, hv, ht]
    · refine ⟨[], ?_⟩
      simp [update_backup_sources_json, lookupRef_updateRefs_other _ _ hk, hv]

/-- Closed instance of the C8 theorem: merging a urls argument that
repeats "y" into a sidecar leaves the key's list duplicate-free. -/
theorem update_backup_sources_json_invariants_witness :
    ("pkg/1.0", ["x", "y"]) ∈ (update_backup_sources_json
        (some ⟨[("pkg/1.0", ["x"])], 3⟩) 9 (some "pkg/1.0")
        ["x", "y", "y"]).references
    ∧ (["x", "y"] : List String).Nodup :=
  ⟨by decide,
   (update_backup_sources_json_invariants ⟨[("pkg/1.0", ["x"])], 3⟩ 9
      (some "pkg/1.0") ["x", "y", "y"]).1 (by decide) ("pkg/1.0", ["x", "y"])
      (by decide)⟩

/-- C10: an update touches only the resolved key — every other key keeps
exactly its prior URL list, and the key sequence is unchanged or grows
by just the resolved key at the end. -/
theorem update_backup_sources_json_frame (s : Summary) (now : Nat)
    (ref? : Option String) (urls : List String) :
    (∀ k, k ≠ summaryKey ref? →
      lookupRef (update_backup_sources_json (some s) now ref? urls).references k
        = lookupRef s.references k)
    ∧ ((update_backup_sources_json (some s) now ref? urls).references.map
          Prod.fst = s.references.map Prod.fst
      ∨ (update_backup_sources_json (some s) now ref? urls).references.map
          Prod.fst = s.references.map Prod.fst ++ [summaryKey ref?]) := by
  constructor
  · intro k hk
    simp [update_backup_sources_json, lookupRef_updateRefs_other _ _ hk]
  · by_cases hmem : summaryKey ref? ∈ s.references.map Prod.fst
    · left
      simp [update_backup_sources_json, updateRefs_keys, hmem]
    · right
      simp [update_backup_sources_json, updateRefs_keys, hmem]

/-- Closed instance of the C10 theorem: updating key "pkg" leaves key
"other" untouched. -/
theorem update_backup_sources_json_frame_witness :
    lookupRef (update_backup_sources_json (some ⟨[("other", ["o"])], 2⟩) 5
        (some "pkg") ["u"]).references "other"
      = lookupRef [("other", ["o"])] "other" :=
  (update_backup_sources_json_frame ⟨[("other", ["o"])], 2⟩ 5 (some "pkg")
    ["u"]).1 "other" (by decide)

/-- Closed instance of the C2 theorem: merging `["a", "b"]` and then
`["b", "c"]` into a fresh sidecar yields `["a", "b", "c"]`. -/
theorem update_backup_sources_json_merge_order_witness :
    lookupRef (update_backup_sources_json
        (some (update_backup_sources_json none 0 (some "pkg/1.0") ["a", "b"]))
        1 (some "pkg/1.0") ["b", "c"]).references (summaryKey (some "pkg/1.0"))
      = some ["a", "b", "c"] :=
  (update_backup_sources_json_merge_order ⟨[], 0⟩ 0 1 (some "pkg/1.0") []).2

/-- C3: the all-excluded test holds exactly when every URL of the key
starts with some excluded element (vacuously for an empty URL list); a
blob none of whose keys qualify contributes nothing to the scan, a blob
with a qualifying key contributes its metadata-path/blob-path pair
exactly once, and the key scan stops at the first qualifying key
regardless of the remaining keys. -/
theorem upload_selector_blob_qualification
    (excluded urls : List String) (all_refs? : Option (List String))
    (path_backups : String) (jsonFiles : List (String × Summary))
    (name : String) (rest : List String) (md : Summary)
    (ref : String) (more : List (String × List String)) :
    has_excluded_urls excluded [] = true
    ∧ (has_excluded_urls excluded urls = true ↔
        ∀ u ∈ urls, ∃ e ∈ excluded, strStartsWith u e = true)
    ∧ (strEndsWith name ".json" = false →
        lookupJson jsonFiles (name ++ ".json") = some md →
        someRefQualifies excluded all_refs? md.references = false →
        collectUploads path_backups jsonFiles excluded all_refs? (name :: rest)
          = collectUploads path_backups jsonFiles excluded all_refs? rest)
    ∧ (strEndsWith name ".json" = false →
        lookupJson jsonFiles (name ++ ".json") = some md →
        someRefQualifies excluded all_refs? md.references = true →
        collectUploads path_backups jsonFiles excluded all_refs? (name :: rest)
          = (collectUploads path_backups jsonFiles excluded all_refs? rest).map
              (fun tail => (pathJoin path_backups name ++ ".json")
                  :: pathJoin path_backups name :: tail))
    ∧ ((∀ p ∈ md.references, has_excluded_urls excluded p.2 = true ∨
          ∃ sel, all_refs? = some sel ∧ p.1 ∉ sel) →
        someRefQualifies excluded all_refs? md.references = false)
    ∧ (has_excluded_urls excluded urls = false →
        (∀ sel, all_refs? = some sel → ref ∈ sel) →
        someRefQualifies excluded all_refs? ((ref, urls) :: more) = true) := by
  refine ⟨rfl, ?_, ?_, ?_, ?_, ?_⟩
  · simp [has_excluded_urls, List.all_eq_true, List.any_eq_true]
  · intro h1 h2 h3
    cases h : collectUploads path_backups jsonFiles excluded all_refs? rest with
    | error e => simp [collectUploads, h1, h2, h3, h, Except.map]
    | ok v => simp [collectUploads, h1, h2, h3, h, Except.map]
  · intro h1 h2 h3
    cases h : collectUploads path_backups jsonFiles excluded all_refs? rest with
    | error e => simp [collectUploads, h1, h2, h3, h, Except.map]
    | ok v => simp [collectUploads, h1, h2, h3, h, Except.map]
  · intro h
    cases hq : someRefQualifies excluded all_refs? md.references with
    | false => rfl
    | true =>
      obtain ⟨p, hp, hne, hsel⟩ := (someRefQualifies_iff _ _ _).1 hq
      rcases h p hp with hex | ⟨sel, hsome, hnot⟩
      · rw [hne] at hex; cases hex
      · exact absurd (hsel sel hsome) hnot
  · intro h1 h2
    exact (someRefQualifies_iff _ _ _).2 ⟨(ref, urls), by simp, h1, h2⟩

/-- Closed instance of the C3 theorem: a qualifying blob contributes its
metadata path and blob path once, in that order. -/
theorem upload_selector_blob_qualification_witness :
    collectUploads "r/s" [("b.json", ⟨[("pkg", ["u"])], 0⟩)] [] none ["b"]
      = (collectUploads "r/s" [("b.json", ⟨[("pkg", ["u"])], 0⟩)] [] none []).map
          (fun tail => (pathJoin "r/s" "b" ++ ".json")
              :: pathJoin "r/s" "b" :: tail) :=
  (upload_selector_blob_qualification [] ["u"] none "r/s"
      [("b.json", ⟨[("pkg", ["u"])], 0⟩)] "b" [] ⟨[("pkg", ["u"])], 0⟩ "pkg"
      []).2.2.2.1 (by decide) (by decide) (by decide)

/-- C4: a reference key is eligible exactly when its entry is marked for
upload or one of its binary packages has some revision marked for
upload; with a selection in force a blob qualifies only through a key in
the eligible set, and with no selection every key that is not
all-excluded qualifies; the selector call with a package list runs the
scan against exactly the eligible set. -/
theorem upload_selector_selection_eligibility
    (pl : List (String × RefEntry)) (k : String) (excluded : List String)
    (sel : List String) (refs : List (String × List String))
    (root : String) (dir : BackupsDir) (ex? : Option (List String)) :
    (k ∈ eligibleRefs pl ↔ ∃ r, (k, r) ∈ pl ∧ (r.upload = true ∨
        ∃ p ∈ r.packages, ∃ rev ∈ p.2, rev.2 = true))
    ∧ (someRefQualifies excluded (some sel) refs = true ↔
        ∃ p ∈ refs, has_excluded_urls excluded p.2 = false ∧ p.1 ∈ sel)
    ∧ (someRefQualifies excluded none refs = true ↔
        ∃ p ∈ refs, has_excluded_urls excluded p.2 = false)
    ∧ get_backup_sources_files_to_upload root (some dir) ex? (some pl)
        = collectUploads (pathJoin root "s") dir.jsonFiles (ex?.getD [])
            (some (eligibleRefs pl)) dir.listing := by
  refine ⟨?_, ?_, ?_, rfl⟩
  · simp only [eligibleRefs, List.mem_filterMap]
    constructor
    · rintro ⟨⟨k₀, r⟩, hmem, hf⟩
      by_cases hc : (r.upload
          || r.packages.any fun p => should_upload_sources p.2) = true
      · rw [if_pos hc] at hf
        cases Option.some.inj hf
        have hc' := hc
        simp only [Bool.or_eq_true, List.any_eq_true,
          should_upload_sources] at hc'
        exact ⟨r, hmem, hc'⟩
      · rw [if_neg hc] at hf
        cases hf
    · rintro ⟨r, hmem, hcond⟩
      refine ⟨(k, r), hmem, ?_⟩
      have hc : (r.upload
          || r.packages.any fun p => should_upload_sources p.2) = true := by
        simp only [Bool.or_eq_true, List.any_eq_true, should_upload_sources]
        exact hcond
      rw [if_pos hc]
  · rw [someRefQualifies_iff]
    constructor
    · rintro ⟨p, hp, hne, hsel⟩
      exact ⟨p, hp, hne, hsel sel rfl⟩
    · rintro ⟨p, hp, hne, hmem⟩
      exact ⟨p, hp, hne, fun s hs => by cases hs; exact hmem⟩
  · rw [someRefQualifies_iff]
    simp

/-- Closed instance of the C4 theorem: with a selection containing the
key, a non-excluded key qualifies the blob. -/
theorem upload_selector_selection_eligibility_witness :
    someRefQualifies [] (some ["pkg/1.0"]) [("pkg/1.0", ["u"])] = true :=
  (upload_selector_selection_eligibility [] "pkg/1.0" [] ["pkg/1.0"]
      [("pkg/1.0", ["u"])] "r" ⟨[], []⟩ none).2.1.mpr
    ⟨("pkg/1.0", ["u"]), by decide, by decide, by decide⟩

/-- C5: a blob enumerated in the backups area without its paired sidecar
makes the whole selection call fail with the missing-metadata message of
such a blob, never a partial or filtered success. -/
theorem get_backup_sources_missing_sidecar_error (root : String)
    (dir : BackupsDir) (ex? : Option (List String))
    (pl? : Option (List (String × RefEntry))) (name : String)
    (hmem : name ∈ dir.listing) (hjson : strEndsWith name ".json" = false)
    (hmiss : lookupJson dir.jsonFiles (name ++ ".json") = none) :
    ∃ b ∈ dir.listing, strEndsWith b ".json" = false ∧
      lookupJson dir.jsonFiles (b ++ ".json") = none ∧
      get_backup_sources_files_to_upload root (some dir) ex? pl?
        = .error ("Missing metadata file for backup source "
            ++ pathJoin (pathJoin root "s") b) := by
  obtain ⟨b, hb, h1, h2, h3⟩ := collectUploads_error_of_missing
    (pathJoin root "s") dir.jsonFiles (ex?.getD []) (pl?.map eligibleRefs)
    dir.listing name hmem hjson hmiss
  exact ⟨b, hb, h1, h2, h3⟩

/-- Closed instance of the C5 theorem: a lone blob with no sidecar makes
the call return the missing-metadata error. -/
theorem get_backup_sources_missing_sidecar_error_witness :
    get_backup_sources_files_to_upload "r" (some ⟨["blob"], []⟩) none none
      = .error ("Missing metadata file for backup source "
          ++ pathJoin (pathJoin "r" "s") "blob") := by
  obtain ⟨b, hb, -, -, he⟩ := get_backup_sources_missing_sidecar_error "r"
    ⟨["blob"], []⟩ none none "blob" (by decide) (by decide) (by decide)
  simp only [List.mem_singleton] at hb
  subst hb
  exact he

/-- C9: the consistency check is one-directional — a listing consisting
only of sidecar names (orphan sidecars, reached by nothing) is silently
ignored and the selector returns the empty list without error. -/
theorem get_backup_sources_orphan_sidecars_ignored (root : String)
    (dir : BackupsDir) (ex? : Option (List String))
    (pl? : Option (List (String × RefEntry)))
    (h : ∀ name ∈ dir.listing, strEndsWith name ".json" = true) :
    get_backup_sources_files_to_upload root (some dir) ex? pl? = .ok [] :=
  collectUploads_all_json (pathJoin root "s") dir.jsonFiles (ex?.getD [])
    (pl?.map eligibleRefs) dir.listing h

/-- Closed instance of the C9 theorem: two orphan sidecars yield an
empty, error-free result. -/
theorem get_backup_sources_orphan_sidecars_ignored_witness :
    get_backup_sources_files_to_upload "r" (some ⟨["a.json", "b.json"], []⟩)
        none none = .ok [] :=
  get_backup_sources_orphan_sidecars_ignored "r" ⟨["a.json", "b.json"], []⟩
    none none (by decide)

end DownloadCache
